import Mathlib

/-!
Verification of the branch-cleanup and route-scanner utilities.

The definitions below are a shallow embedding of the two scripts
`src/git/delete-stale-and-merged-branches.ts` and
`src/get-express-endpoints.ts`.  JavaScript `Date` values are embedded as
their millisecond value (an `Int`, the value of `Number(date)`); Unix
timestamps read from git output are seconds, multiplied by 1000 when a
`Date` is constructed.  Fallible operations are embedded in
`Except String`, reflecting thrown `Error`s.  `Array.prototype.sort`
(stable since ES2019) with the numeric date comparator is embedded as
`List.insertionSort`, the canonical stable sort on the same key.
-/

/-- Embeds the `BranchNameWithDate` record type: a branch name together with
the millisecond value of its last-commit `Date`. -/
structure BranchNameWithDate where
  name : String
  lastCommitDate : Int
deriving Repr, DecidableEq

/-- Embeds the `ignoreTheseBranches` constant: the protected branch names. -/
def ignoreTheseBranches : List String :=
  [ "main", "master", "staging", "production" ]

/-- Embeds `filterOutKeyBranchNames`: keeps the branch names that are not in
`ignoreTheseBranches` (the source uses `Array.prototype.includes`, an exact
string-equality membership test). -/
def filterOutKeyBranchNames (branchNames : List String) : List String :=
  branchNames.filter (fun branchName => !(ignoreTheseBranches.contains branchName))

/-- The key order used by the sort comparator
`(a, b) => Number(a.lastCommitDate) - Number(b.lastCommitDate)`:
ascending by millisecond date value. -/
def byDate (a b : BranchNameWithDate) : Prop :=
  a.lastCommitDate ≤ b.lastCommitDate

instance : DecidableRel byDate :=
  fun a b => inferInstanceAs (Decidable (a.lastCommitDate ≤ b.lastCommitDate))

instance : IsTotal BranchNameWithDate byDate :=
  ⟨fun a b => Int.le_total a.lastCommitDate b.lastCommitDate⟩

instance : IsTrans BranchNameWithDate byDate :=
  ⟨fun _ _ _ hab hbc => le_trans hab hbc⟩

/-- Embeds `filterToBranchesModifiedSinceDate`: keeps the records whose
`lastCommitDate` is strictly below `modifiedDate`
(`Number(modifiedDate) > Number(gitBranch.lastCommitDate)`), then sorts them
ascending by date with the stable `Array.prototype.sort`. -/
def filterToBranchesModifiedSinceDate
    (branchesWithDates : List BranchNameWithDate) (modifiedDate : Int) :
    List BranchNameWithDate :=
  List.insertionSort byDate
    (branchesWithDates.filter (fun gitBranch => decide (modifiedDate > gitBranch.lastCommitDate)))

/-- Embeds the classification phase of `deleteStaleAndMergedBranches`
(lines 33 to 51 of the source): filter out protected names from both
listings, attach resolved commit dates (`dates` gives the millisecond
last-commit date of each branch name, the per-name result of a successful
`getBranchDates` call, which preserves input order), classify stale
branches, then remove every stale branch name from the merged pool (the
source builds a `Set` of stale names and tests it with `has`, an exact
string-equality membership test) before classifying merged branches. -/
def deleteStaleAndMergedBranchesClassification
    (dates : String → Int) (allRemoteBranches mergedRemoteBranches : List String)
    (staleBranchDate mergedBranchDate : Int) :
    List BranchNameWithDate × List BranchNameWithDate :=
  let remoteBranchNames := filterOutKeyBranchNames allRemoteBranches
  let mergedBranchNames := filterOutKeyBranchNames mergedRemoteBranches
  let remoteBranchesWithDates :=
    remoteBranchNames.map (fun n => { name := n, lastCommitDate := dates n : BranchNameWithDate })
  let staleBranchesToDelete :=
    filterToBranchesModifiedSinceDate remoteBranchesWithDates staleBranchDate
  let staleBranchNames := staleBranchesToDelete.map (fun branch => branch.name)
  let mergedBranchesWithDates :=
    (mergedBranchNames.map
        (fun n => { name := n, lastCommitDate := dates n : BranchNameWithDate })).filter
      (fun branch => !(staleBranchNames.contains branch.name))
  let mergedBranchesToDelete :=
    filterToBranchesModifiedSinceDate mergedBranchesWithDates mergedBranchDate
  (staleBranchesToDelete, mergedBranchesToDelete)

/-- Outcome of the confirmation gate: either the deleter is invoked on a
list of branches, or the process prints a notice and exits with the given
code without deleting anything. -/
inductive ConfirmationOutcome where
  | proceed (toDelete : List BranchNameWithDate)
  | declinedExit (exitCode : Nat)
deriving Repr, DecidableEq

/-- Embeds lines 55 to 64 of `deleteStaleAndMergedBranches`: the strict
string comparison `userResponse === 'yes'` decides between invoking
`deleteBranches` on the spread `[...stale, ...merged]` and calling
`process.exit(0)` with no deletion. -/
def confirmationGate (userResponse : String)
    (staleBranchesToDelete mergedBranchesToDelete : List BranchNameWithDate) :
    ConfirmationOutcome :=
  if userResponse = "yes" then
    ConfirmationOutcome.proceed (staleBranchesToDelete ++ mergedBranchesToDelete)
  else
    ConfirmationOutcome.declinedExit 0

/-- Decides whether an `Except` value is a success. -/
def exceptIsOk {ε α : Type} : Except ε α → Bool
  | Except.ok _ => true
  | Except.error _ => false

/-- Applies a fallible operation to every list element, in order, failing
with the first error.  This embeds both the JavaScript pattern
`array.map(f)` with a `throw` inside `f`, and `Promise.all` over per-element
operations (which rejects whenever any element rejects and otherwise
resolves to the results in input order). -/
def mapMExcept {α β ε : Type} (f : α → Except ε β) : List α → Except ε (List β)
  | [] => Except.ok []
  | a :: rest =>
    match f a with
    | Except.error e => Except.error e
    | Except.ok b =>
      match mapMExcept f rest with
      | Except.error e => Except.error e
      | Except.ok bs => Except.ok (b :: bs)

/-- The shell command text built by `deleteBranch` for one branch name. -/
def deleteBranchCommand (branchName : String) : String :=
  "git push origin --delete " ++ branchName

/-- Result of a `deleteBranches` batch: the deletion commands issued (the
`Promise.all` fan-out starts every command immediately, so all commands are
issued regardless of individual failures, and no compensating command
exists) and the awaited outcome, an error whenever any one deletion
failed. -/
structure DeleteBatchResult where
  issuedCommands : List String
  outcome : Except String Unit
deriving Repr

/-- Collapses the awaited per-branch results of the `Promise.all` into the
overall outcome: the first rejection, or unit success. -/
def awaitAll (results : Except String (List Unit)) : Except String Unit :=
  match results with
  | Except.error e => Except.error e
  | Except.ok _ => Except.ok ()

/-- Embeds `deleteBranches`: issues one deletion command per record and
awaits them all; `deleteResult` gives each command's result. -/
def deleteBranches (deleteResult : String → Except String Unit)
    (branches : List BranchNameWithDate) : DeleteBatchResult :=
  { issuedCommands := branches.map (fun branch => deleteBranchCommand branch.name)
  , outcome := awaitAll (mapMExcept (fun branch => deleteResult branch.name) branches) }

/-- Characters matched by the JavaScript whitespace class and trimmed by
`String.prototype.trim` (the members that can occur in git output and
source files). -/
def isJsSpace (c : Char) : Bool :=
  c == ' ' || c == '\t' || c == '\r' || c == '\n' || c == Char.ofNat 11 ||
    c == Char.ofNat 12 || c == Char.ofNat 160 || c == Char.ofNat 65279

/-- Splits a character list at every newline, keeping empty pieces, the
semantics of the JavaScript `split` with a newline separator. -/
def splitNlChars : List Char → List String
  | [] => [ "" ]
  | c :: rest =>
    match splitNlChars rest with
    | [] => [ "" ]
    | t :: ts =>
      if c = '\n' then "" :: t :: ts
      else (String.mk (c :: t.toList)) :: ts

/-- Models the JavaScript `stdout.split` on a newline separator. -/
def jsSplitNewline (s : String) : List String :=
  splitNlChars s.toList

/-- Models `String.prototype.trim`: removes leading and trailing
whitespace. -/
def jsTrim (s : String) : String :=
  String.mk (((s.toList.dropWhile isJsSpace).reverse.dropWhile isJsSpace).reverse)

/-- Models `String.prototype.startsWith`. -/
def jsStartsWith (s marker : String) : Bool :=
  s.toList.take marker.toList.length == marker.toList

/-- Characters matched by the JavaScript regex metacharacter dot: anything
except a line terminator. -/
def isDotChar (c : Char) : Bool :=
  !(c == '\n' || c == '\r' || c == Char.ofNat 8232 || c == Char.ofNat 8233)

/-- Characters matched by the JavaScript word class backslash-w:
ASCII letters, digits and underscore. -/
def isWordChar (c : Char) : Bool :=
  c.isAlphanum || c == '_'

/-- Denotation of `safeMatch(line, regex)[1]` for the anchored regex of
`getAllMergedRemoteBranches`, which is: start, any whitespace, one or more
non-slash characters, a slash, then a captured group of one or more dot
characters, then end.  Because whitespace characters are themselves
non-slash characters, the regex matches exactly when the text before the
first slash is non-empty and the text after it is a non-empty run of dot
characters, and the capture is the text after the first slash. -/
def matchMergedBranchLine (line : String) : Option String :=
  let cs := line.toList
  let before := cs.takeWhile (fun c => c != '/')
  let rest := cs.dropWhile (fun c => c != '/')
  match rest with
  | [] => none
  | _ :: after =>
    if before.isEmpty then none
    else if after.isEmpty then none
    else if after.all isDotChar then some (String.mk after) else none

/-- Denotation of `safeMatch(line, regex)[1]` for the anchored regex of
`getAllRemoteBranches`, which is: start, one or more word characters, one
or more whitespace characters, the literal text refs/heads/, then a
captured group of one or more dot characters, then end.  Word and
whitespace classes are disjoint, so the greedy runs are forced and the
match is decided without backtracking. -/
def matchRemoteHeadLine (line : String) : Option String :=
  let cs := line.toList
  let wordRun := cs.takeWhile isWordChar
  let rest1 := cs.dropWhile isWordChar
  let spaceRun := rest1.takeWhile isJsSpace
  let rest2 := rest1.dropWhile isJsSpace
  if wordRun.isEmpty then none
  else if spaceRun.isEmpty then none
  else
    let lit := String.toList ( "refs/heads/" )
    if rest2.take lit.length = lit then
      let after := rest2.drop lit.length
      if after.isEmpty then none
      else if after.all isDotChar then some (String.mk after) else none
    else none

/-- The final truthiness filter both listing functions apply to the mapped
branch names (dead in practice, since every successful capture is
non-empty, but kept faithful to the source). -/
def keepTruthyNames (result : Except String (List String)) : Except String (List String) :=
  match result with
  | Except.error e => Except.error e
  | Except.ok branchNames => Except.ok (branchNames.filter (fun s => !(s == "")))

/-- Embeds `getAllMergedRemoteBranches` applied to the standard output of
the merged-branch listing command: split into lines, drop empty lines, then
map each line through the regex extraction, throwing on any line that does
not match; the final filter repeats the truthiness check of the source. -/
def getAllMergedRemoteBranchesFromOutput (stdout : String) : Except String (List String) :=
  let lines := jsSplitNewline stdout
  keepTruthyNames (mapMExcept (fun line =>
      match matchMergedBranchLine line with
      | some branchName => Except.ok branchName
      | none =>
        Except.error ( "Failed to extract branch name from \"" ++ line ++ "\"" ))
    (lines.filter (fun l => !(l == ""))))

/-- Embeds `getAllRemoteBranches` applied to the standard output of the
remote-head listing command, with the same throw-on-mismatch mapping. -/
def getAllRemoteBranchesFromOutput (stdout : String) : Except String (List String) :=
  let lines := (jsSplitNewline stdout).filter (fun l => !(l == ""))
  keepTruthyNames (mapMExcept (fun line =>
      match matchRemoteHeadLine line with
      | some branchName => Except.ok branchName
      | none =>
        Except.error ( "Failed to extract branch name from \"" ++ line ++ "\"" ))
    lines)

/-- Parses a non-empty all-digit character list as a natural number. -/
def parseDigits (cs : List Char) : Option Nat :=
  if cs.isEmpty then none
  else if cs.all (fun c => c.isDigit) then
    some (cs.foldl (fun acc c => acc * 10 + (c.toNat - 48)) 0)
  else none

/-- Models the JavaScript `Number(string)` conversion on the string shapes
relevant here: the empty string converts to 0, an optionally signed decimal
integer string converts to its value, and `none` models `NaN` for every
other string.  (Fractional, exponent and radix forms do not occur in the
inputs used by the theorems below.) -/
def jsNumberOfString (s : String) : Option Int :=
  match s.toList with
  | [] => some 0
  | '-' :: rest => (parseDigits rest).map (fun n => -(n : Int))
  | '+' :: rest => (parseDigits rest).map (fun n => (n : Int))
  | cs => (parseDigits cs).map (fun n => (n : Int))

/-- Result of one external shell command: exit code, standard output and
standard error. -/
structure ShellResult where
  exitCode : Nat
  stdout : String
  stderr : String
deriving Repr, DecidableEq

/-- Embeds `getLastCommitDateOfBranch` as a function of the two shell
results it consumes (the fetch and the date query; both are run with
`rejectOnError`, and the source additionally throws on a non-zero exit
code).  On success it returns the millisecond value of
`new Date(numericTimestamp * 1000)`.  A trimmed output whose `Number`
conversion is `NaN` throws; note the conversion itself, not positivity, is
what is checked here. -/
def getLastCommitDateOfBranch (fetchResult scriptResult : ShellResult) :
    Except String Int :=
  if fetchResult.exitCode ≠ 0 then Except.error fetchResult.stderr
  else if scriptResult.exitCode ≠ 0 then Except.error scriptResult.stderr
  else
    let loggedTimestamp := jsTrim scriptResult.stdout
    match jsNumberOfString loggedTimestamp with
    | none =>
      Except.error ( "Failed to extract numeric timestamp from \"" ++ loggedTimestamp ++ "\"" )
    | some numericTimestamp => Except.ok (numericTimestamp * 1000)

/-- Embeds `getBranchDates`: resolves the date of every branch name with
`lastCommitDateOf` (the embedded `getLastCommitDateOfBranch` for that
name), throwing when the resolved `Date` has a falsy numeric value (a
`Date` object itself is always truthy, and its numeric value in this
integer embedding is falsy exactly when it is 0); `Promise.all` fails the
whole batch on any failure and otherwise keeps input order. -/
def getBranchDates (lastCommitDateOf : String → Except String Int)
    (branchNames : List String) : Except String (List BranchNameWithDate) :=
  mapMExcept (fun branchName =>
    match lastCommitDateOf branchName with
    | Except.error e => Except.error e
    | Except.ok lastCommitDate =>
      if lastCommitDate = 0 then
        Except.error ( "Failed to get last commit date for branch " ++ branchName )
      else
        Except.ok { name := branchName, lastCommitDate := lastCommitDate }) branchNames

/-- Embeds the `Endpoint` record type of the route scanner. -/
structure Endpoint where
  type : String
  path : String
deriving Repr, DecidableEq

/-- Replaces every maximal whitespace run by a single space; the flag says
whether the previous character was part of a whitespace run. -/
def collapseRunsAux : Bool → List Char → List Char
  | _, [] => []
  | prevSpace, c :: rest =>
    if isJsSpace c then
      if prevSpace then collapseRunsAux true rest
      else ' ' :: collapseRunsAux true rest
    else c :: collapseRunsAux false rest

/-- Models the `collapseWhiteSpace` helper used by the route scanner: trim,
then collapse interior whitespace runs into single spaces. -/
def collapseWhiteSpace (input : String) : String :=
  String.mk (collapseRunsAux false (jsTrim input).toList)

/-- The three quote characters of the path regex character class. -/
def isQuoteChar (c : Char) : Bool :=
  c == Char.ofNat 39 || c == Char.ofNat 34 || c == Char.ofNat 96

/-- Attempts the method regex of the route scanner at the head of the text:
the literal app followed by a dot, a captured group of one or more
non-open-parenthesis characters, then an open parenthesis. -/
def matchAppMethodAt (cs : List Char) : Option String :=
  if cs.take 4 = String.toList ( "app." ) then
    let afterDot := cs.drop 4
    let run := afterDot.takeWhile (fun c => c != '(')
    let rest := afterDot.dropWhile (fun c => c != '(')
    if run.isEmpty then none
    else
      match rest with
      | [] => none
      | _ :: _ => some (String.mk run)
  else none

/-- Denotation of the unanchored method regex: the engine tries every start
position from the left and returns the first successful capture. -/
def matchAppMethod : List Char → Option String
  | [] => none
  | c :: rest =>
    match matchAppMethodAt (c :: rest) with
    | some m => some m
    | none => matchAppMethod rest

/-- Attempts the path regex of the route scanner at the head of the text:
an open parenthesis, any whitespace, a quote character, a captured group of
one or more non-quote characters, then a quote character.  Whitespace and
quote classes are disjoint, so matching is decided without backtracking. -/
def matchQuotedPathAt (cs : List Char) : Option String :=
  match cs with
  | '(' :: rest =>
    let afterWs := rest.dropWhile isJsSpace
    match afterWs with
    | [] => none
    | q :: rest2 =>
      if isQuoteChar q then
        let run := rest2.takeWhile (fun c => !(isQuoteChar c))
        let rest3 := rest2.dropWhile (fun c => !(isQuoteChar c))
        if run.isEmpty then none
        else
          match rest3 with
          | [] => none
          | _ :: _ => some (String.mk run)
      else none
  | _ => none

/-- Denotation of the unanchored path regex: first successful capture over
all start positions, scanning left to right. -/
def matchQuotedPath : List Char → Option String
  | [] => none
  | c :: rest =>
    match matchQuotedPathAt (c :: rest) with
    | some p => some p
    | none => matchQuotedPath rest

/-- Turns an optional capture into the string the source keeps: the capture
when the regex matched, the empty string otherwise (the nullish coalescing
in the source). -/
def captureOrEmpty (capture : Option String) : String :=
  match capture with
  | some s => s
  | none => ""

/-- Embeds `getFileEndpoints` on the list of file lines: for every line
whose trimmed form starts with the app-dot marker, push one endpoint whose
type is the method capture and whose path is the quoted-path capture over
the trimmed line concatenated with the following line (empty string when
there is no following line), both defaulting to the empty string. -/
def getFileEndpoints : List String → List Endpoint
  | [] => []
  | rawLine :: rest =>
    let trimmedLine := jsTrim rawLine
    let current :=
      if jsStartsWith trimmedLine ( "app." ) then
        let method := captureOrEmpty (matchAppMethod trimmedLine.toList)
        let nextLine :=
          match rest with
          | [] => ""
          | nl :: _ => nl
        let combinedLines := collapseWhiteSpace (trimmedLine ++ nextLine)
        let path := captureOrEmpty (matchQuotedPath combinedLines.toList)
        [ { type := method, path := path : Endpoint } ]
      else []
    current ++ getFileEndpoints rest

/-- Filtering to the records holding a given date commutes with
`orderedInsert`: every record the insertion walks past has a strictly
smaller date than the inserted record, so it cannot hold the inserted
record's date. -/
theorem filter_date_orderedInsert (t : Int) (a : BranchNameWithDate) :
    ∀ s : List BranchNameWithDate,
      (List.orderedInsert byDate a s).filter (fun b => b.lastCommitDate == t) =
        (a :: s).filter (fun b => b.lastCommitDate == t) := by
  have expand : ∀ (x : BranchNameWithDate) (L : List BranchNameWithDate),
      (x :: L).filter (fun b => b.lastCommitDate == t) =
        (if x.lastCommitDate = t then [x] else []) ++
          L.filter (fun b => b.lastCommitDate == t) := by
    intro x L
    by_cases hx : x.lastCommitDate = t
    · simp [List.filter_cons, hx]
    · simp [List.filter_cons, hx]
  intro s
  induction s with
  | nil => rfl
  | cons c s ih =>
    by_cases hac : byDate a c
    · rw [List.orderedInsert, if_pos hac]
    · rw [List.orderedInsert, if_neg hac]
      have hlt : c.lastCommitDate < a.lastCommitDate := lt_of_not_le hac
      rw [expand c, ih, expand a, expand a, expand c]
      by_cases hat : a.lastCommitDate = t
      · have hct : ¬(c.lastCommitDate = t) := by omega
        simp [hat, hct]
      · simp [hat]

/-- Stability of the embedded sort, stated through date-filters: the records
holding any fixed date appear in the sorted output in the same order as in
the input. -/
theorem filter_date_insertionSort (t : Int) :
    ∀ l : List BranchNameWithDate,
      (List.insertionSort byDate l).filter (fun b => b.lastCommitDate == t) =
        l.filter (fun b => b.lastCommitDate == t) := by
  intro l
  induction l with
  | nil => rfl
  | cons a l ih =>
    rw [List.insertionSort, filter_date_orderedInsert, List.filter_cons, List.filter_cons, ih]

/-- Membership in the classifier output: the sort permutes the filtered
list, so a record is in the output exactly when it passes the strict date
comparison and is in the input. -/
theorem mem_filterToBranches_iff
    (branchesWithDates : List BranchNameWithDate) (modifiedDate : Int)
    (b : BranchNameWithDate) :
    b ∈ filterToBranchesModifiedSinceDate branchesWithDates modifiedDate ↔
      b ∈ branchesWithDates ∧ modifiedDate > b.lastCommitDate := by
  unfold filterToBranchesModifiedSinceDate
  rw [List.mem_insertionSort, List.mem_filter]
  simp

/-- C1: the classifier output is a permutation of exactly the input records
that pass the strict comparison, and a record is in the output exactly when
it is in the input and the threshold is numerically greater than its commit
date; in particular a record whose commit date equals the threshold is
excluded. -/
theorem filterToBranchesModifiedSinceDate_mem_iff
    (branchesWithDates : List BranchNameWithDate) (modifiedDate : Int)
    (b : BranchNameWithDate) :
    (b ∈ filterToBranchesModifiedSinceDate branchesWithDates modifiedDate ↔
      b ∈ branchesWithDates ∧ modifiedDate > b.lastCommitDate) ∧
    List.Perm (filterToBranchesModifiedSinceDate branchesWithDates modifiedDate)
      (branchesWithDates.filter
        (fun gitBranch => decide (modifiedDate > gitBranch.lastCommitDate))) :=
  ⟨mem_filterToBranches_iff branchesWithDates modifiedDate b,
    List.perm_insertionSort byDate _⟩

/-- C7: the classifier output is sorted ascending by commit date, the sort
is stable (records holding any fixed date keep their input order), and on
the concrete input B1, B2 at date 100 and B3 at date 99 with threshold 101
the output order is B3, B1, B2. -/
theorem filterToBranchesModifiedSinceDate_sorted_stable
    (l : List BranchNameWithDate) (d : Int) :
    List.Sorted byDate (filterToBranchesModifiedSinceDate l d) ∧
    (∀ t : Int,
      (filterToBranchesModifiedSinceDate l d).filter (fun b => b.lastCommitDate == t) =
        (l.filter (fun b => decide (d > b.lastCommitDate))).filter
          (fun b => b.lastCommitDate == t)) ∧
    filterToBranchesModifiedSinceDate
        [ ⟨ "B1", 100 ⟩, ⟨ "B2", 100 ⟩, ⟨ "B3", 99 ⟩ ] 101 =
      [ ⟨ "B3", 99 ⟩, ⟨ "B1", 100 ⟩, ⟨ "B2", 100 ⟩ ] := by
  refine ⟨List.sorted_insertionSort byDate _, fun t => ?_, by decide⟩
  exact filter_date_insertionSort t _

/-- C10: classifying an already classified list with the same threshold
changes nothing. -/
theorem filterToBranchesModifiedSinceDate_idempotent
    (l : List BranchNameWithDate) (d : Int) :
    filterToBranchesModifiedSinceDate (filterToBranchesModifiedSinceDate l d) d =
      filterToBranchesModifiedSinceDate l d := by
  have hmem : ∀ b ∈ filterToBranchesModifiedSinceDate l d,
      (decide (d > b.lastCommitDate)) = true := by
    intro b hb
    have := (mem_filterToBranches_iff l d b).mp hb
    simpa using this.2
  have hfilter :
      (filterToBranchesModifiedSinceDate l d).filter
          (fun gitBranch => decide (d > gitBranch.lastCommitDate)) =
        filterToBranchesModifiedSinceDate l d :=
    List.filter_eq_self.mpr hmem
  have hsorted : List.Sorted byDate (filterToBranchesModifiedSinceDate l d) :=
    List.sorted_insertionSort byDate _
  show List.insertionSort byDate
      ((filterToBranchesModifiedSinceDate l d).filter
        (fun gitBranch => decide (d > gitBranch.lastCommitDate))) =
    filterToBranchesModifiedSinceDate l d
  rw [hfilter, hsorted.insertionSort_eq]

/-- A failing element makes the whole `mapMExcept` batch fail. -/
theorem mapMExcept_isOk_false_of_mem {α β : Type} (f : α → Except String β)
    (l : List α) (x : α) (hx : x ∈ l) (hfx : exceptIsOk (f x) = false) :
    exceptIsOk (mapMExcept f l) = false := by
  induction l with
  | nil => cases hx
  | cons a rest ih =>
    rcases List.mem_cons.mp hx with rfl | hx2
    · rw [mapMExcept]
      cases hfa : f x with
      | error e => simp [exceptIsOk]
      | ok b => rw [hfa] at hfx; simp [exceptIsOk] at hfx
    · have hrest := ih hx2
      rw [mapMExcept]
      cases hfa : f a with
      | error e => simp [exceptIsOk]
      | ok b =>
        cases hmm : mapMExcept f rest with
        | error e => simp [exceptIsOk]
        | ok bs => rw [hmm] at hrest; simp [exceptIsOk] at hrest

/-- When every element succeeds, the whole `mapMExcept` batch succeeds. -/
theorem mapMExcept_isOk_true_of_forall {α β : Type} (f : α → Except String β)
    (l : List α) (h : ∀ x ∈ l, exceptIsOk (f x) = true) :
    exceptIsOk (mapMExcept f l) = true := by
  induction l with
  | nil => rfl
  | cons a rest ih =>
    rw [mapMExcept]
    have ha := h a (List.mem_cons_self a rest)
    cases hfa : f a with
    | error e => rw [hfa] at ha; simp [exceptIsOk] at ha
    | ok b =>
      have hrest := ih (fun x hx => h x (List.mem_cons_of_mem a hx))
      cases hmm : mapMExcept f rest with
      | error e => rw [hmm] at hrest; simp [exceptIsOk] at hrest
      | ok bs => simp [exceptIsOk]

/-- The dead truthiness filter does not change success or failure. -/
theorem exceptIsOk_keepTruthyNames (result : Except String (List String)) :
    exceptIsOk (keepTruthyNames result) = exceptIsOk result := by
  cases result <;> rfl

/-- Awaiting the fan-out does not change success or failure. -/
theorem exceptIsOk_awaitAll (results : Except String (List Unit)) :
    exceptIsOk (awaitAll results) = exceptIsOk results := by
  cases results <;> rfl

/-- A `contains` test returning false refutes membership. -/
theorem not_mem_of_contains_eq_false {x : String} {ns : List String}
    (h : ns.contains x = false) : x ∉ ns := by
  intro hmem
  rw [List.contains_eq_any_beq] at h
  have htrue : ns.any (fun y => x == y) = true :=
    List.any_eq_true.mpr ⟨x, hmem, by simp⟩
  rw [htrue] at h
  cases h

/-- C2: a branch name classified as stale never reappears in the merged
classification result of the same run, because the merged pool is filtered
against the stale name set before the merged threshold is applied. -/
theorem classification_stale_merged_disjoint
    (dates : String → Int) (allRemoteBranches mergedRemoteBranches : List String)
    (staleBranchDate mergedBranchDate : Int) (branchName : String)
    (hstale : branchName ∈
      (deleteStaleAndMergedBranchesClassification dates allRemoteBranches mergedRemoteBranches
          staleBranchDate mergedBranchDate).1.map (fun branch => branch.name)) :
    branchName ∉
      (deleteStaleAndMergedBranchesClassification dates allRemoteBranches mergedRemoteBranches
          staleBranchDate mergedBranchDate).2.map (fun branch => branch.name) := by
  intro hmerged
  simp only [deleteStaleAndMergedBranchesClassification] at hstale hmerged
  rw [List.mem_map] at hmerged
  obtain ⟨b, hb, hbname⟩ := hmerged
  have hb2 := ((mem_filterToBranches_iff _ _ _).mp hb).1
  rw [List.mem_filter] at hb2
  have hcontains := hb2.2
  rw [Bool.not_eq_true'] at hcontains
  have hnotmem := not_mem_of_contains_eq_false hcontains
  rw [hbname] at hnotmem
  exact hnotmem hstale

/-- C2 witness at a concrete run: dates all 0, both listings hold the same
branch, both thresholds 5, so the branch is stale and must not be in the
merged result. -/
theorem classification_stale_merged_disjoint_witness :
    "feature-a" ∉
      (deleteStaleAndMergedBranchesClassification (fun _ => 0) ([ "feature-a" ])
          ([ "feature-a" ]) 5 5).2.map (fun branch => branch.name) :=
  classification_stale_merged_disjoint (fun _ => 0) ([ "feature-a" ]) ([ "feature-a" ])
    5 5 "feature-a" (by decide)

/-- C3 counterexample: a non-empty listing line that does not match the
expected shape is not silently dropped; both listing functions throw and
the whole query fails, even when other lines are well formed. -/
theorem listing_malformed_line_not_dropped_cx :
    getAllMergedRemoteBranchesFromOutput ( "origin/good\nbadline\norigin/other" ) =
        Except.error ( "Failed to extract branch name from \"badline\"" ) ∧
    getAllRemoteBranchesFromOutput ( "badline" ) =
        Except.error ( "Failed to extract branch name from \"badline\"" ) :=
  ⟨rfl, rfl⟩

/-- C3 amended: a non-empty line of either listing output that does not
match the expected shape makes the whole listing query fail (only empty
lines are dropped silently). -/
theorem listing_malformed_line_fatal (stdout line : String)
    (hmem : line ∈ jsSplitNewline stdout) (hne : line ≠ "") :
    (matchMergedBranchLine line = none →
      exceptIsOk (getAllMergedRemoteBranchesFromOutput stdout) = false) ∧
    (matchRemoteHeadLine line = none →
      exceptIsOk (getAllRemoteBranchesFromOutput stdout) = false) := by
  have hmem2 : line ∈ (jsSplitNewline stdout).filter (fun l => !(l == "")) := by
    rw [List.mem_filter]
    exact ⟨hmem, by simp [hne]⟩
  constructor
  · intro hnomatch
    simp only [getAllMergedRemoteBranchesFromOutput]
    rw [exceptIsOk_keepTruthyNames]
    refine mapMExcept_isOk_false_of_mem _ _ line hmem2 ?_
    rw [hnomatch]
    rfl
  · intro hnomatch
    simp only [getAllRemoteBranchesFromOutput]
    rw [exceptIsOk_keepTruthyNames]
    refine mapMExcept_isOk_false_of_mem _ _ line hmem2 ?_
    rw [hnomatch]
    rfl

/-- C3 witness: a listing output holding one good line and one malformed
line fails as a whole. -/
theorem listing_malformed_line_fatal_witness :
    exceptIsOk (getAllMergedRemoteBranchesFromOutput ( "origin/ok\nbad-no-slash" )) = false :=
  (listing_malformed_line_fatal ( "origin/ok\nbad-no-slash" ) ( "bad-no-slash" )
    (by decide) (by decide)).1 rfl

/-- C4 counterexample: the text -5 does not parse as a positive integer,
yet the run is not aborted: the date resolution and the batch both succeed
and produce a record with a negative millisecond date. -/
theorem negative_timestamp_accepted_cx :
    getBranchDates
        (fun _ => getLastCommitDateOfBranch
          { exitCode := 0, stdout := "", stderr := "" }
          { exitCode := 0, stdout := "-5", stderr := "" })
        ([ "feature-x" ]) =
      Except.ok [ { name := "feature-x", lastCommitDate := -5000 } ] := rfl

/-- C4 amended: commit-date resolution is fatal to the whole batch when the
fetch fails, when the date query fails, when the retrieved text does not
convert to a number, or when the resolved date value is 0; a failing branch
is never skipped individually.  (Positivity is not enforced: a negative
numeric timestamp is accepted, see the counterexample.) -/
theorem branch_date_failure_fatal
    (fetchResult scriptResult : ShellResult)
    (lastCommitDateOf : String → Except String Int)
    (branchNames : List String) (branchName : String) :
    (fetchResult.exitCode ≠ 0 →
      exceptIsOk (getLastCommitDateOfBranch fetchResult scriptResult) = false) ∧
    (scriptResult.exitCode ≠ 0 →
      exceptIsOk (getLastCommitDateOfBranch fetchResult scriptResult) = false) ∧
    (jsNumberOfString (jsTrim scriptResult.stdout) = none →
      exceptIsOk (getLastCommitDateOfBranch fetchResult scriptResult) = false) ∧
    (branchName ∈ branchNames →
      exceptIsOk (lastCommitDateOf branchName) = false →
      exceptIsOk (getBranchDates lastCommitDateOf branchNames) = false) ∧
    (branchName ∈ branchNames →
      lastCommitDateOf branchName = Except.ok 0 →
      exceptIsOk (getBranchDates lastCommitDateOf branchNames) = false) := by
  refine ⟨?_, ?_, ?_, ?_, ?_⟩
  · intro h
    simp [getLastCommitDateOfBranch, h, exceptIsOk]
  · intro h
    by_cases h1 : fetchResult.exitCode ≠ 0
    · simp [getLastCommitDateOfBranch, h1, exceptIsOk]
    · simp [getLastCommitDateOfBranch, h1, h, exceptIsOk]
  · intro hnone
    by_cases h1 : fetchResult.exitCode ≠ 0
    · simp [getLastCommitDateOfBranch, h1, exceptIsOk]
    · by_cases h2 : scriptResult.exitCode ≠ 0
      · simp [getLastCommitDateOfBranch, h1, h2, exceptIsOk]
      · simp [getLastCommitDateOfBranch, h1, h2, hnone, exceptIsOk]
  · intro hmem hfail
    simp only [getBranchDates]
    refine mapMExcept_isOk_false_of_mem _ _ branchName hmem ?_
    cases hb : lastCommitDateOf branchName with
    | error e => simp [exceptIsOk]
    | ok v => rw [hb] at hfail; simp [exceptIsOk] at hfail
  · intro hmem hzero
    simp only [getBranchDates]
    refine mapMExcept_isOk_false_of_mem _ _ branchName hmem ?_
    rw [hzero]
    simp [exceptIsOk]

/-- C4 witness: one branch whose date resolution rejects makes the whole
`getBranchDates` batch fail. -/
theorem branch_date_failure_fatal_witness :
    exceptIsOk (getBranchDates (fun _ => Except.error ( "boom" )) ([ "alpha" ])) = false :=
  (branch_date_failure_fatal { exitCode := 1, stdout := "", stderr := "" }
      { exitCode := 0, stdout := "", stderr := "" }
      (fun _ => Except.error ( "boom" )) ([ "alpha" ]) "alpha").2.2.2.1
    (by decide) rfl

/-- C5: the deleter is invoked, on the stale set followed by the merged
set, exactly when the response is the exact string yes; any other response
exits with code 0 and no deletion. -/
theorem confirmationGate_yes_iff (userResponse : String)
    (staleBranchesToDelete mergedBranchesToDelete : List BranchNameWithDate) :
    (confirmationGate userResponse staleBranchesToDelete mergedBranchesToDelete =
        ConfirmationOutcome.proceed (staleBranchesToDelete ++ mergedBranchesToDelete) ↔
      userResponse = "yes") ∧
    (userResponse ≠ "yes" →
      confirmationGate userResponse staleBranchesToDelete mergedBranchesToDelete =
        ConfirmationOutcome.declinedExit 0) := by
  constructor
  · constructor
    · intro h
      by_contra hne
      simp only [confirmationGate, if_neg hne] at h
      cases h
    · intro h
      simp only [confirmationGate, if_pos h]
  · intro h
    simp only [confirmationGate, if_neg h]

/-- C5 witness: the response no yields the clean exit with code 0. -/
theorem confirmationGate_yes_iff_witness :
    confirmationGate ( "no" ) [] [] = ConfirmationOutcome.declinedExit 0 :=
  (confirmationGate_yes_iff ( "no" ) [] []).2 (by decide)

/-- C6: no protected branch name ever appears in either classification
output, whatever the dates; protection is an exact string-equality test. -/
theorem protected_branches_never_classified
    (dates : String → Int) (allRemoteBranches mergedRemoteBranches : List String)
    (staleBranchDate mergedBranchDate : Int) (b : BranchNameWithDate)
    (hb : b ∈ (deleteStaleAndMergedBranchesClassification dates allRemoteBranches
          mergedRemoteBranches staleBranchDate mergedBranchDate).1 ∨
        b ∈ (deleteStaleAndMergedBranchesClassification dates allRemoteBranches
          mergedRemoteBranches staleBranchDate mergedBranchDate).2) :
    b.name ≠ "main" ∧ b.name ≠ "master" ∧ b.name ≠ "staging" ∧ b.name ≠ "production" := by
  simp only [deleteStaleAndMergedBranchesClassification] at hb
  have hmap : b ∈ (filterOutKeyBranchNames allRemoteBranches).map
        (fun n => { name := n, lastCommitDate := dates n : BranchNameWithDate }) ∨
      b ∈ (filterOutKeyBranchNames mergedRemoteBranches).map
        (fun n => { name := n, lastCommitDate := dates n : BranchNameWithDate }) := by
    rcases hb with h | h
    · exact Or.inl ((mem_filterToBranches_iff _ _ _).mp h).1
    · have h2 := ((mem_filterToBranches_iff _ _ _).mp h).1
      exact Or.inr (List.mem_filter.mp h2).1
  have hsurvives : b.name ∉ ignoreTheseBranches := by
    rcases hmap with h | h <;>
    · rw [List.mem_map] at h
      obtain ⟨n, hn, heq⟩ := h
      rw [filterOutKeyBranchNames, List.mem_filter] at hn
      have hcontains := hn.2
      rw [Bool.not_eq_true'] at hcontains
      have := not_mem_of_contains_eq_false hcontains
      rw [← heq]
      exact this
  rw [ignoreTheseBranches] at hsurvives
  simp only [List.mem_cons, List.not_mem_nil, or_false, not_or] at hsurvives
  exact hsurvives

/-- C6 witness at a concrete run: the protected name main is listed, only
the unprotected branch survives into the stale output, and its name
differs from every protected name. -/
theorem protected_branches_never_classified_witness :
    ({ name := "feature-x", lastCommitDate := 0 : BranchNameWithDate }).name ≠ "main" ∧
    ({ name := "feature-x", lastCommitDate := 0 : BranchNameWithDate }).name ≠ "master" ∧
    ({ name := "feature-x", lastCommitDate := 0 : BranchNameWithDate }).name ≠ "staging" ∧
    ({ name := "feature-x", lastCommitDate := 0 : BranchNameWithDate }).name ≠ "production" :=
  protected_branches_never_classified (fun _ => 0) ([ "main", "feature-x" ]) [] 5 5
    { name := "feature-x", lastCommitDate := 0 } (Or.inl (by decide))

/-- C8: the deleter receives the stale set followed by the merged set and
issues one deletion command per record; every command is issued by the
fan-out regardless of individual outcomes (so completed deletions are never
rolled back and no compensating command exists), any single failure fails
the whole batch, and the batch succeeds when every deletion succeeds. -/
theorem deleteBranches_batch (deleteResult : String → Except String Unit)
    (staleBranchesToDelete mergedBranchesToDelete : List BranchNameWithDate) :
    (deleteBranches deleteResult
        (staleBranchesToDelete ++ mergedBranchesToDelete)).issuedCommands =
        staleBranchesToDelete.map (fun branch => deleteBranchCommand branch.name) ++
          mergedBranchesToDelete.map (fun branch => deleteBranchCommand branch.name) ∧
    (∀ branch ∈ staleBranchesToDelete ++ mergedBranchesToDelete,
      exceptIsOk (deleteResult branch.name) = false →
      exceptIsOk (deleteBranches deleteResult
          (staleBranchesToDelete ++ mergedBranchesToDelete)).outcome = false) ∧
    ((∀ branch ∈ staleBranchesToDelete ++ mergedBranchesToDelete,
        deleteResult branch.name = Except.ok ()) →
      (deleteBranches deleteResult
          (staleBranchesToDelete ++ mergedBranchesToDelete)).outcome = Except.ok ()) := by
  refine ⟨by simp [deleteBranches], ?_, ?_⟩
  · intro branch hmem hfail
    simp only [deleteBranches]
    rw [exceptIsOk_awaitAll]
    exact mapMExcept_isOk_false_of_mem _ _ branch hmem hfail
  · intro hok
    simp only [deleteBranches]
    have hall := mapMExcept_isOk_true_of_forall
      (fun branch => deleteResult branch.name)
      (staleBranchesToDelete ++ mergedBranchesToDelete)
      (fun x hx => by
        show exceptIsOk (deleteResult x.name) = true
        rw [hok x hx]
        rfl)
    cases hmm : mapMExcept (fun branch => deleteResult branch.name)
        (staleBranchesToDelete ++ mergedBranchesToDelete) with
    | error e => rw [hmm] at hall; simp [exceptIsOk] at hall
    | ok bs => simp [awaitAll, hmm]

/-- C8 witness: three approved branches with the second deletion failing;
the batch outcome is a failure. -/
theorem deleteBranches_batch_witness :
    exceptIsOk (deleteBranches
        (fun n => if n == "b2" then Except.error ( "delete failed" ) else Except.ok ())
        ([ { name := "b1", lastCommitDate := 1 } ] ++
          [ { name := "b2", lastCommitDate := 2 }, { name := "b3", lastCommitDate := 3 } ])).outcome
      = false :=
  (deleteBranches_batch
      (fun n => if n == "b2" then Except.error ( "delete failed" ) else Except.ok ())
      ([ { name := "b1", lastCommitDate := 1 } ])
      ([ { name := "b2", lastCommitDate := 2 }, { name := "b3", lastCommitDate := 3 } ])).2.1
    { name := "b2", lastCommitDate := 2 } (by decide) rfl

/-- C9: the route scanner emits exactly one endpoint record per line whose
trimmed form starts with the app-dot marker, unconditionally: with no
quoted path on the line and its successor the record still appears with an
empty path, and with no method match the type is empty as well. -/
theorem getFileEndpoints_unconditional_emission (fileLines : List String) :
    (getFileEndpoints fileLines).length =
      (fileLines.filter (fun l => jsStartsWith (jsTrim l) ( "app." ))).length ∧
    getFileEndpoints ([ "app.use(someMiddleware)" ]) = [ { type := "use", path := "" } ] ∧
    getFileEndpoints ([ "app.(" ]) = [ { type := "", path := "" } ] := by
  refine ⟨?_, rfl, rfl⟩
  induction fileLines with
  | nil => rfl
  | cons rawLine rest ih =>
    cases h : jsStartsWith (jsTrim rawLine) ( "app." ) <;>
      simp [getFileEndpoints, List.filter_cons, h, ih]
